import Mathlib

/-!
Verification of the `parse-nested-form-data` library (src/index.ts).

The embedding models the JavaScript source faithfully:

* JS values (`JsonValue` in the source) are split into `LeafValue` (the
  terminal values produced by the transform) and heap `Node`s; containers
  are allocated in an arena (`List Node`) and referenced by address
  (`Addr`), mirroring JS reference identity.  This is needed because the
  source mutates arrays and objects in place and keeps a `Set` of array
  references (`arraysWithOrder`).
* JS arrays may contain holes (sparse assignment `arr[21] = v`); an array
  node therefore stores `List (Option Addr)` where `none` is a hole.
* The tokenizer `extractPathParts` is a model of the regex scan
  `/((?<array>\d*)\]|(?<pathPart>[^.[]+))(?<nextType>\[|\.|$)/g` run via
  `String.matchAll`, including the regex engine's backtracking from the
  first alternative to the second and `exec`'s advance-by-one resynchronisation.
* `Number`, `Boolean(Number(...))`, `Array.prototype.flat(0)` and
  `Array.from(set)` are JS host builtins; they are modelled on the
  fragment the library exercises (see the doc comments at their
  definitions).
-/

/-- JS number produced by the `Number(...)` coercion: either NaN or a
finite value (modelled as a rational; the library never does arithmetic
on numbers, it only stores them). -/
inductive JsNum where
  | nan
  | val (q : ℚ)
deriving DecidableEq, Repr

/-- Opaque binary payload (`File` in the source); never inspected or
coerced by the library, only passed through. -/
structure FileVal where
  name : String
  content : String
deriving DecidableEq, Repr

/-- A raw `FormData` entry value: `string | File`. -/
inductive RawValue where
  | str (s : String)
  | file (f : FileVal)
deriving DecidableEq, Repr

/-- Source `JsonLeafValue`: the non-container JSON values. -/
inductive LeafValue where
  | str (s : String)
  | num (n : JsNum)
  | bool (b : Bool)
  | null
  | file (f : FileVal)
deriving DecidableEq, Repr

/-- Address of a node in the arena that models the JS object graph. -/
abbrev Addr := Nat

/-- A node of the object graph: a leaf value, an object (key/child-address
pairs in insertion order) or an array (child addresses, `none` = hole). -/
inductive Node where
  | leaf (v : LeafValue)
  | obj (fields : List (String × Addr))
  | arr (elems : List (Option Addr))
deriving DecidableEq, Repr

/-- The fully resolved output tree (the value the caller observes).
Array elements keep `Option` so that a hole, were one ever to survive to
the output, would be visible as `none`. -/
inductive JsonValue where
  | str (s : String)
  | num (n : JsNum)
  | bool (b : Bool)
  | null
  | file (f : FileVal)
  | obj (fields : List (String × JsonValue))
  | arr (elems : List (Option JsonValue))

/-- View a leaf value as an output tree value. -/
def leafToJson : LeafValue → JsonValue
  | .str s => .str s
  | .num n => .num n
  | .bool b => .bool b
  | .null => .null
  | .file f => .file f

/-- The two error classes of the source: `DuplicateKeyError` (structural
or duplicate conflict) and `MixedArrayError` (mixed array addressing),
each carrying the offending path-so-far (`key` field in the source). -/
inductive FormError where
  | DuplicateKeyError (key : String)
  | MixedArrayError (key : String)
deriving DecidableEq, Repr

/-- A `FormData` entry: `[path, value]`. -/
abbrev Entry := String × RawValue

/-! ### The default transform (source: `defaultTransform`)  -/

/-- JS whitespace test for the characters relevant to `Number(...)`
string trimming (the library's inputs are form field names and values;
the exotic Unicode space classes are outside the modelled fragment). -/
def isWsChar (c : Char) : Bool :=
  c = ' ' || c = '\t' || c = '\n' || c = '\r'

/-- Count the longest run of characters satisfying `p` at the front. -/
def countWhile (p : Char → Bool) : List Char → Nat
  | [] => 0
  | c :: cs => if p c then countWhile p cs + 1 else 0

/-- Numeric value of a run of decimal digits (base 10, leading zeros
allowed), as JS reads the digit strings in `Number(...)` and in array
indices `Number(pathPart.path)`. -/
def digitsVal (ds : List Char) : Nat :=
  ds.foldl (fun n c => n * 10 + (c.toNat - '0'.toNat)) 0

/-- Trim JS whitespace at both ends. -/
def trimWs (cs : List Char) : List Char :=
  ((cs.dropWhile isWsChar).reverse.dropWhile isWsChar).reverse

/-- Parse an unsigned decimal literal `digits+ ['.' digits*] | '.' digits+`
occupying the whole list.  Part of the model of ECMAScript `ToNumber`. -/
def parseDecCore (cs : List Char) : Option ℚ :=
  let d := countWhile Char.isDigit cs
  let intDs := cs.take d
  let rest := cs.drop d
  if rest = [] then
    if d = 0 then none else some (digitsVal intDs : ℚ)
  else if rest.head? = some '.' then
    let rest2 := rest.drop 1
    let f := countWhile Char.isDigit rest2
    if rest2.drop f ≠ [] then none
    else if d = 0 ∧ f = 0 then none
    else some ((digitsVal intDs : ℚ) + (digitsVal (rest2.take f) : ℚ) / (10 : ℚ) ^ f)
  else none

/-- Model of the ECMAScript `Number(string)` coercion on the fragment the
library exercises: whitespace-trimmed optionally signed decimal literals.
The empty (or all-whitespace) string is `0`; any string outside the
modelled literal fragment (e.g. `"abc"`, `"on"`, `"true"`) is NaN.
(Hexadecimal, exponent and `Infinity` forms are outside the fragment and
also map to NaN here; the library's claims never touch them.) -/
def jsStrToNumber (s : String) : JsNum :=
  match trimWs s.toList with
  | [] => .val 0
  | '+' :: r => match parseDecCore r with | some q => .val q | none => .nan
  | '-' :: r => match parseDecCore r with | some q => .val (-q) | none => .nan
  | r => match parseDecCore r with | some q => .val q | none => .nan

/-- Model of `Number(value)` where `value : string | File`.  `Number` of a `File`
object is NaN (its string conversion `"[object File]"` is not numeric). -/
def jsToNumber : RawValue → JsNum
  | .str s => jsStrToNumber s
  | .file _ => .nan

/-- Model of `Boolean(n)` for a JS number: false exactly for `0`, `-0` and NaN. -/
def jsTruthy : JsNum → Bool
  | .nan => false
  | .val q => decide (q ≠ 0)

/-- JS strict equality `value === s` between a `string | File` value and
a string literal. -/
def rawIsStr (v : RawValue) (s : String) : Bool :=
  match v with
  | .str t => t = s
  | .file _ => false

/-- A raw value viewed as a leaf (pass-through: text stays text, binary
payload stays binary payload). -/
def leafOfRaw : RawValue → LeafValue
  | .str s => .str s
  | .file f => .file f

/-- First character of a string (`path.startsWith(c)` for the one-character
sigils). -/
def strHead? (s : String) : Option Char :=
  s.toList.head?

/-- Model of `path.slice(1)`: drop the leading sigil character. -/
def strTail (s : String) : String :=
  String.mk s.toList.tail

/-- Source `defaultTransform`: strip a leading `+`/`&`/`-` sigil and
coerce the value to number / boolean / null respectively; otherwise pass
path and value through unchanged. -/
def defaultTransform (entry : Entry) : String × LeafValue :=
  let path := entry.1
  let v := entry.2
  if strHead? path = some '+' then
    (strTail path, .num (jsToNumber v))
  else if strHead? path = some '&' then
    (strTail path, .bool (rawIsStr v "on" || rawIsStr v "true" || jsTruthy (jsToNumber v)))
  else if strHead? path = some '-' then
    (strTail path, .null)
  else
    (path, leafOfRaw v)

/-! ### The tokenizer (source: `extractPathParts`) -/

/-- The `type` tag of a path part: `'object' | 'array'`. -/
inductive PType where
  | object
  | array
deriving DecidableEq, Repr

/-- Source `PathPart`: raw segment text (`path`), kind (`type`), the
default container for the next level (`default`: `[]` or `{}`), and the
path prefix up to and including this segment (`pathToPart`). -/
structure PathPart where
  path : String
  type : PType
  default : Node
  pathToPart : String
deriving DecidableEq, Repr

/-- A character allowed inside an object segment: `[^.[]`. -/
def isSegChar (c : Char) : Bool :=
  c ≠ '.' && c ≠ '['

/-- Second alternative `(?<pathPart>[^.[]+)(?<nextType>\[|\.|$)` of the
tokenizer regex, attempted at absolute position `i` of `full`.  The
greedy run of `[^.[]` characters always ends directly before `.`, `[` or
the end of the string, so `nextType` always matches after a non-empty
run.  Returns the path part and the scan position after the match. -/
def branchB (full : List Char) (i : Nat) : Option (PathPart × Nat) :=
  let suf := full.drop i
  let m := countWhile isSegChar suf
  if m = 0 then none
  else
    let text := String.mk (suf.take m)
    let p2p := String.mk (full.take (i + m))
    if suf[m]? = some '[' then some (⟨text, .object, Node.arr [], p2p⟩, i + m + 1)
    else if suf[m]? = none then some (⟨text, .object, Node.obj [], p2p⟩, i + m)
    else some (⟨text, .object, Node.obj [], p2p⟩, i + m + 1)

/-- One attempt of the tokenizer regex
`((?<array>\d*)\]|(?<pathPart>[^.[]+))(?<nextType>\[|\.|$)` at absolute
position `i` of `full`.  The first alternative `(\d*)\]` takes the
maximal digit run followed by `]` (a shorter digit run cannot be
followed by `]`, so the greedy run is the only candidate); if its
`nextType` fails the engine backtracks to the second alternative. -/
def matchAt (full : List Char) (i : Nat) : Option (PathPart × Nat) :=
  let suf := full.drop i
  let d := countWhile Char.isDigit suf
  if suf[d]? = some ']' then
    let text := String.mk (suf.take d)
    let p2p := String.mk (full.take (i + d + 1))
    if suf[d + 1]? = some '[' then some (⟨text, .array, Node.arr [], p2p⟩, i + d + 2)
    else if suf[d + 1]? = some '.' then some (⟨text, .array, Node.obj [], p2p⟩, i + d + 2)
    else if suf[d + 1]? = none then some (⟨text, .array, Node.obj [], p2p⟩, i + d + 1)
    else branchB full i
  else branchB full i

/-- The global-regex scan of `String.matchAll`: from position `i`, find
the first position at or after `i` where the regex matches, emit that
match and continue after it.  Every match consumes at least one
character, so `full.length + 1` units of fuel suffice. -/
def scanParts (full : List Char) : Nat → Nat → List PathPart
  | _, 0 => []
  | i, fuel + 1 =>
    if full.length ≤ i then []
    else
      match matchAt full i with
      | some (pp, next) => pp :: scanParts full next fuel
      | none => scanParts full (i + 1) fuel

/-- Source `extractPathParts`: tokenize a canonical path into its path
parts by scanning with the tokenizer regex. -/
def extractPathParts (path : String) : List PathPart :=
  scanParts path.toList 0 (path.toList.length + 1)

/-! ### The inserter (source: `handlePathPart` and the body of `parseFormData`) -/

/-- Parser state: the arena of allocated nodes (address = list index;
the root object lives at address 0) and the `arraysWithOrder` set,
kept as a duplicate-free list in insertion order like a JS `Set`. -/
structure PState where
  heap : List Node
  awo : List Addr
deriving DecidableEq, Repr

/-- Read the node at an address (addresses handed around are always
allocated; the default is never observable). -/
def heapGet (h : List Node) (a : Addr) : Node :=
  (h[a]?).getD (.leaf .null)

/-- Overwrite the node at an address. -/
def setNode (h : List Node) (a : Addr) (n : Node) : List Node :=
  h.set a n

/-- Where a resolved setter writes: `obj[key] = v` or `arr[i] = v`. -/
inductive WriteTarget where
  | objKey (k : String)
  | arrIdx (i : Nat)
deriving DecidableEq, Repr

/-- JS object property read `obj[key]` (first matching key; keys are
unique because writes replace in place). -/
def lookupField : List (String × Addr) → String → Option Addr
  | [], _ => none
  | (k0, a0) :: rest, k => if k0 = k then some a0 else lookupField rest k

/-- JS object property write `obj[key] = a`: replace in place if the key
exists, otherwise append (JS insertion order). -/
def setField : List (String × Addr) → String → Addr → List (String × Addr)
  | [], k, a => [(k, a)]
  | (k0, a0) :: rest, k, a =>
    if k0 = k then (k0, a) :: rest else (k0, a0) :: setField rest k a

/-- JS array element read `arr[i]`: `undefined` (`none`) beyond the end
or at a hole. -/
def arrGet (es : List (Option Addr)) (i : Nat) : Option Addr :=
  (es[i]?).getD none

/-- JS array element write `arr[i] = a`: in range it overwrites; past the
end it extends the array with holes up to index `i`. -/
def arrSet (es : List (Option Addr)) (i : Nat) (a : Addr) : List (Option Addr) :=
  if i < es.length then es.set i (some a)
  else es ++ List.replicate (i - es.length) none ++ [some a]

/-- Model of `Set.add`: append if not present (JS sets iterate in insertion order). -/
def awoAdd (aw : List Addr) (a : Addr) : List Addr :=
  if a ∈ aw then aw else aw ++ [a]

/-- Model of `Number(pathPart.path)` for the digit string of an explicit array
index. -/
def digitsToNat (s : String) : Nat :=
  digitsVal s.toList

/-- Source `handlePathPart`: given the path part, the address and node of
the current container and the `arraysWithOrder` set, either fail or
return the value read at the part's position (`nextPathValue`), the write
target captured by the setter closure, and the updated set.

The source's `currentPathObject` is statically `JsonArray | JsonObject`;
the `.leaf` rows mirror the dynamic JS behaviour (`Array.isArray` is
false for a leaf, property reads give `undefined`) and are unreachable
from `parseFormData`. -/
def handlePathPart (pp : PathPart) (self : Addr) (node : Node) (aw : List Addr) :
    Except FormError (Option Addr × WriteTarget × List Addr) :=
  match pp.type with
  | .object =>
    match node with
    | .arr _ => .error (.DuplicateKeyError pp.pathToPart)
    | .obj fs => .ok (lookupField fs pp.path, .objKey pp.path, aw)
    | .leaf _ => .ok (none, .objKey pp.path, aw)
  | .array =>
    match node with
    | .arr es =>
      let isOrdered := pp.path ≠ ""
      let isOrderedArray := self ∈ aw
      let aw' := if isOrdered then awoAdd aw self else aw
      if (!isOrdered && isOrderedArray)
          || (isOrdered && !isOrderedArray && decide (0 < es.length)) then
        .error (.MixedArrayError pp.pathToPart)
      else
        let order := if isOrdered then digitsToNat pp.path else es.length
        .ok (arrGet es order, .arrIdx order, aw')
    | _ => .error (.DuplicateKeyError pp.pathToPart)

/-- Apply a captured setter: write child address `a` at the resolved
position inside the container at `cur`.  (The target always matches the
container's kind; the mismatching rows are unreachable no-ops.) -/
def setAt (heap : List Node) (cur : Addr) : WriteTarget → Addr → List Node
  | .objKey k, a =>
    match heapGet heap cur with
    | .obj fs => setNode heap cur (.obj (setField fs k a))
    | _ => heap
  | .arrIdx i, a =>
    match heapGet heap cur with
    | .arr es => setNode heap cur (.arr (arrSet es i a))
    | _ => heap

/-- The `pathParts.forEach` body of `parseFormData`: walk the parts from
the container at `cur`, creating missing containers, and write the leaf
value at the final part.  Mirrors source lines 473-498. -/
def insertParts : PState → Addr → LeafValue → List PathPart → Except FormError PState
  | st, _, _, [] => .ok st
  | st, cur, value, pp :: rest =>
    match handlePathPart pp cur (heapGet st.heap cur) st.awo with
    | .error e => .error e
    | .ok (nextPathValue, wt, aw') =>
      match rest with
      | [] =>
        match nextPathValue with
        | some _ => .error (.DuplicateKeyError pp.pathToPart)
        | none =>
          let a := st.heap.length
          let heap2 := st.heap ++ [Node.leaf value]
          .ok ⟨setAt heap2 cur wt a, aw'⟩
      | _ :: _ =>
        match nextPathValue with
        | some a =>
          match heapGet st.heap a with
          | .leaf _ => .error (.DuplicateKeyError pp.pathToPart)
          | _ =>
            insertParts ⟨setAt st.heap cur wt a, aw'⟩ a value rest
        | none =>
          let a := st.heap.length
          let heap2 := st.heap ++ [pp.default]
          insertParts ⟨setAt heap2 cur wt a, aw'⟩ a value rest

/-- Run error of one parse call: an error thrown by a custom
`transformEntry` callback propagates unmodified (`user`), the core itself
only ever throws the two `FormError`s (`core`). -/
inductive RunError (ε : Type) where
  | user (e : ε)
  | core (e : FormError)

/-- Process one entry (the body of the `for` loop in `parseFormData`):
skip empty-string values when `removeEmptyString` is set, otherwise
transform and insert. -/
def processEntry {ε : Type} (transform : Entry → Except ε (String × LeafValue))
    (removeEmptyString : Bool) (st : PState) (e : Entry) :
    Except (RunError ε) PState :=
  if removeEmptyString ∧ e.2 = .str "" then .ok st
  else
    match transform e with
    | .error err => .error (.user err)
    | .ok (path, value) =>
      match insertParts st 0 value (extractPathParts path) with
      | .error pe => .error (.core pe)
      | .ok st' => .ok st'

/-- Process the entries in input order, stopping at the first error. -/
def runEntries {ε : Type} (transform : Entry → Except ε (String × LeafValue))
    (removeEmptyString : Bool) : PState → List Entry → Except (RunError ε) PState
  | st, [] => .ok st
  | st, e :: rest =>
    match processEntry transform removeEmptyString st e with
    | .error err => .error err
    | .ok st' => runEntries transform removeEmptyString st' rest

/-- Model of `array.flat(0)` followed by the in-place `splice`: drop the holes of
one array, keeping the set elements in index order. -/
def squash (es : List (Option Addr)) : List (Option Addr) :=
  (es.filterMap id).map some

/-- Squash an array node, leave anything else unchanged. -/
def squashNode : Node → Node
  | .arr es => .arr (squash es)
  | n => n

/-- The compaction pass of `parseFormData`: squash every array in
`arraysWithOrder`, in insertion order, in place. -/
def compactPass (st : PState) : PState :=
  ⟨st.awo.foldl (fun h a => setNode h a (squashNode (heapGet h a))) st.heap, st.awo⟩

/-- Read off the value of the node at an address, recursing into its
children.  Children are always allocated after their parents, so the
depth of the graph below any address is bounded by the heap size and
`heap.length` units of fuel always suffice. -/
def resolveNode (heap : List Node) : Nat → Addr → JsonValue
  | 0, _ => .null
  | fuel + 1, a =>
    match heapGet heap a with
    | .leaf v => leafToJson v
    | .obj fs => .obj (fs.map fun p => (p.1, resolveNode heap fuel p.2))
    | .arr es => .arr (es.map fun o => o.map (resolveNode heap fuel))

/-- The value of the root object (address 0) of a finished parse. -/
def resolveRoot (heap : List Node) : JsonValue :=
  resolveNode heap heap.length 0

/-- Source `parseFormData`, generic in the `transformEntry` callback
(which may fail with its own error type `ε`, propagated unmodified):
insert every entry, then squash every ordered array, and return the root
object. -/
def parseFormDataWith {ε : Type} (transform : Entry → Except ε (String × LeafValue))
    (removeEmptyString : Bool) (entries : List Entry) :
    Except (RunError ε) JsonValue :=
  match runEntries transform removeEmptyString ⟨[Node.obj []], []⟩ entries with
  | .error err => .error err
  | .ok st => .ok (resolveRoot (compactPass st).heap)

/-- The default transform as an infallible `transformEntry` callback. -/
def defaultTransformE : Entry → Except Empty (String × LeafValue) :=
  fun e => .ok (defaultTransform e)

/-- Source `parseFormData` with the default transform (which never fails). -/
def parseFormData (removeEmptyString : Bool) (entries : List Entry) :
    Except FormError JsonValue :=
  match parseFormDataWith defaultTransformE removeEmptyString entries with
  | .ok v => .ok v
  | .error (.core pe) => .error pe
  | .error (.user e) => e.elim

/-! ### Spec-side definitions for the tokenizer claim

The spec's path grammar is `path := segment ('.' segment | array-segment)*`
with `segment := [^.[]+` and `array-segment := '[' digit* ']'`.  A
grammar-matching canonical path is exactly the rendering of a head
segment followed by a list of items (dot-separated segments and array
segments), so the tokenizer claim is quantified over that structure. -/

/-- One grammar item after the head segment: `'.' segment` or
`'[' digit* ']'`. -/
inductive PathItem where
  | dotSeg (s : String)
  | arrSeg (d : String)
deriving DecidableEq, Repr

/-- The characters an item contributes to the canonical path. -/
def itemRender : PathItem → List Char
  | .dotSeg s => '.' :: s.toList
  | .arrSeg d => '[' :: (d.toList ++ [']'])

/-- Render a list of grammar items. -/
def itemsRender : List PathItem → List Char
  | [] => []
  | it :: rest => itemRender it ++ itemsRender rest

/-- Grammar wellformedness of an object segment: non-empty, characters
drawn from `[^.[]`. -/
def segOkB (s : String) : Bool :=
  !s.toList.isEmpty && s.toList.all isSegChar

/-- An object segment of the shape `digit* ']'` (e.g. `"]"`, `"0]"`,
`"12]"`): the shapes on which the regex's first alternative fires even
though the grammar reads them as object segments. -/
def isBracketForm (s : String) : Bool :=
  decide (s.toList.drop (countWhile Char.isDigit s.toList) = [']'])

/-- Grammar wellformedness of an item (for the amended tokenizer claim,
dot segments additionally exclude the `digit* ']'` shape). -/
def itemOkB : PathItem → Bool
  | .dotSeg s => segOkB s && !isBracketForm s
  | .arrSeg d => d.toList.all Char.isDigit

/-- Spec side: the default container of a segment is an empty array
exactly when the immediately following character is `[`, i.e. when the
next item is an array segment. -/
def dfltOf : List PathItem → Node
  | .arrSeg _ :: _ => Node.arr []
  | _ => Node.obj []

/-- Spec side: the segment sequence the tokenizer is claimed to produce
for the items following a prefix `acc` of the canonical path: each item
yields one part whose `pathToPart` is the path prefix ending at the
item's last character. -/
def expectedParts (acc : List Char) : List PathItem → List PathPart
  | [] => []
  | .dotSeg s :: rest =>
    ⟨s, .object, dfltOf rest, String.mk (acc ++ '.' :: s.toList)⟩ ::
      expectedParts (acc ++ '.' :: s.toList) rest
  | .arrSeg d :: rest =>
    ⟨d, .array, dfltOf rest, String.mk (acc ++ '[' :: (d.toList ++ [']']))⟩ ::
      expectedParts (acc ++ '[' :: (d.toList ++ [']'])) rest

/-- The default container selected by the `nextType` group of the
tokenizer regex, as a function of the characters following the match. -/
def nextTypeDflt (rest : List Char) : Node :=
  if rest.head? = some '[' then Node.arr [] else Node.obj []

/-- How many separator characters the `nextType` group consumes: one for
`[` or `.`, zero at the end of the string. -/
def nextTypeConsume (rest : List Char) : Nat :=
  if rest = [] then 0 else 1

deriving instance DecidableEq for RunError

deriving instance DecidableEq for Except

/-! ### General lemmas -/

theorem countWhile_le (p : Char → Bool) (xs : List Char) : countWhile p xs ≤ xs.length := by
  induction xs with
  | nil => simp [countWhile]
  | cons c cs ih =>
    simp only [countWhile]
    split
    · simpa using ih
    · simp

theorem countWhile_append (p : Char → Bool) (xs ys : List Char) :
    countWhile p (xs ++ ys) =
      if countWhile p xs = xs.length then xs.length + countWhile p ys
      else countWhile p xs := by
  induction xs with
  | nil => simp [countWhile]
  | cons c cs ih =>
    simp only [List.cons_append, countWhile]
    split
    · rw [show cs.append ys = cs ++ ys from rfl, ih]
      by_cases h : countWhile p cs = cs.length
      · simp [h, Nat.succ_add]
      · have hne : ¬(countWhile p cs + 1 = cs.length + 1) := by omega
        simp [h, hne]
    · have hne : ¬((0 : Nat) = cs.length + 1) := by omega
      simp [hne]

theorem countWhile_all (p : Char → Bool) (xs : List Char) (h : ∀ c ∈ xs, p c = true) :
    countWhile p xs = xs.length := by
  induction xs with
  | nil => rfl
  | cons c cs ih =>
    simp only [countWhile, h c (List.mem_cons_self _ _), if_true]
    simp [ih fun c' hc => h c' (List.mem_cons_of_mem _ hc)]

theorem countWhile_stop (p : Char → Bool) (xs : List Char)
    (h : countWhile p xs < xs.length) :
    ∃ c, xs[countWhile p xs]? = some c ∧ p c = false := by
  induction xs with
  | nil => simp at h
  | cons c cs ih =>
    simp only [countWhile] at h ⊢
    split
    · next hp =>
      simp only [hp] at h ⊢
      have := ih (by simpa using h)
      simpa using this
    · next hp =>
      exact ⟨c, by simp, Bool.eq_false_iff.mpr hp⟩

theorem branchB_eval (pre s rest : List Char)
    (hs : s ≠ []) (hseg : ∀ c ∈ s, isSegChar c = true)
    (hrest : rest = [] ∨ (∃ r, rest = '.' :: r) ∨ (∃ r, rest = '[' :: r)) :
    branchB (pre ++ (s ++ rest)) pre.length =
      some (⟨String.mk s, .object, nextTypeDflt rest, String.mk (pre ++ s)⟩,
        pre.length + s.length + nextTypeConsume rest) := by
  have hdrop : (pre ++ (s ++ rest)).drop pre.length = s ++ rest := List.drop_left _ _
  have hcw_s : countWhile isSegChar s = s.length := countWhile_all _ _ hseg
  have hcw_rest : countWhile isSegChar rest = 0 := by
    rcases hrest with rfl | ⟨r, rfl⟩ | ⟨r, rfl⟩ <;> simp [countWhile, isSegChar]
  have hm : countWhile isSegChar (s ++ rest) = s.length := by
    rw [countWhile_append, if_pos hcw_s, hcw_rest]
    omega
  have hm0 : s.length ≠ 0 := by simpa using hs
  have htake : (s ++ rest).take s.length = s := List.take_left _ _
  have htakefull : (pre ++ (s ++ rest)).take (pre.length + s.length) = pre ++ s := by
    rw [show pre ++ (s ++ rest) = (pre ++ s) ++ rest by simp,
      show pre.length + s.length = (pre ++ s).length by simp]
    exact List.take_left _ _
  have hget : (s ++ rest)[s.length]? = rest.head? := by
    rw [List.getElem?_append_right (Nat.le_refl _)]
    simp [List.head?_eq_getElem?]
  simp only [branchB, hdrop, hm, htake, htakefull, hget, hm0, if_false]
  rcases hrest with rfl | ⟨r, rfl⟩ | ⟨r, rfl⟩ <;>
    simp [nextTypeDflt, nextTypeConsume]

theorem matchAt_arr (pre ds rest : List Char)
    (hds : ∀ c ∈ ds, Char.isDigit c = true)
    (hrest : rest = [] ∨ (∃ r, rest = '.' :: r) ∨ (∃ r, rest = '[' :: r)) :
    matchAt (pre ++ (ds ++ ']' :: rest)) pre.length =
      some (⟨String.mk ds, .array, nextTypeDflt rest, String.mk (pre ++ ds ++ [']'])⟩,
        pre.length + ds.length + 1 + nextTypeConsume rest) := by
  have hdrop : (pre ++ (ds ++ ']' :: rest)).drop pre.length = ds ++ ']' :: rest :=
    List.drop_left _ _
  have hcw : countWhile Char.isDigit (ds ++ ']' :: rest) = ds.length := by
    rw [countWhile_append, if_pos (countWhile_all _ _ hds)]
    simp [countWhile, Char.isDigit]
  have hget : (ds ++ ']' :: rest)[ds.length]? = some ']' := by
    rw [List.getElem?_append_right (Nat.le_refl _)]
    simp
  have hget1 : (ds ++ ']' :: rest)[ds.length + 1]? = rest.head? := by
    rw [List.getElem?_append_right (Nat.le_succ_of_le (Nat.le_refl _))]
    simp [List.head?_eq_getElem?]
  have htake : (ds ++ ']' :: rest).take ds.length = ds := List.take_left _ _
  have htakefull : (pre ++ (ds ++ ']' :: rest)).take (pre.length + ds.length + 1) =
      pre ++ ds ++ [']'] := by
    rw [show pre ++ (ds ++ ']' :: rest) = (pre ++ ds ++ [']']) ++ rest by simp,
      show pre.length + ds.length + 1 = (pre ++ ds ++ [']']).length by
        simp only [List.length_append, List.length_cons, List.length_nil]]
    exact List.take_left _ _
  simp only [matchAt, hdrop, hcw, hget, hget1, htake, htakefull, if_pos]
  rcases hrest with rfl | ⟨r, rfl⟩ | ⟨r, rfl⟩ <;>
    simp [nextTypeDflt, nextTypeConsume, Nat.add_assoc]

theorem matchAt_obj (pre s rest : List Char)
    (hs : s ≠ []) (hseg : ∀ c ∈ s, isSegChar c = true)
    (hbr : s.drop (countWhile Char.isDigit s) ≠ [']'])
    (hrest : rest = [] ∨ (∃ r, rest = '.' :: r) ∨ (∃ r, rest = '[' :: r)) :
    matchAt (pre ++ (s ++ rest)) pre.length =
      some (⟨String.mk s, .object, nextTypeDflt rest, String.mk (pre ++ s)⟩,
        pre.length + s.length + nextTypeConsume rest) := by
  have hdrop : (pre ++ (s ++ rest)).drop pre.length = s ++ rest := List.drop_left _ _
  have hB := branchB_eval pre s rest hs hseg hrest
  rcases Nat.lt_or_ge (countWhile Char.isDigit s) s.length with hk | hk
  · -- the digit run stops inside s
    have hd : countWhile Char.isDigit (s ++ rest) = countWhile Char.isDigit s := by
      rw [countWhile_append, if_neg (Nat.ne_of_lt hk)]
    obtain ⟨c, hc, hcd⟩ := countWhile_stop Char.isDigit s hk
    have hgets : (s ++ rest)[countWhile Char.isDigit s]? = some c := by
      rw [List.getElem?_append_left hk, hc]
    by_cases hcbr : c = ']'
    · subst hcbr
      -- the `]` cannot be the last character of s (bracket form excluded)
      have hk1 : countWhile Char.isDigit s + 1 < s.length := by
        rcases Nat.lt_or_ge (countWhile Char.isDigit s + 1) s.length with h | h
        · exact h
        · exfalso
          apply hbr
          have hgetelem : s[countWhile Char.isDigit s] = ']' := by
            have h2 := List.getElem?_eq_getElem hk
            rw [hc] at h2
            exact (Option.some.injEq _ _).mp h2.symm
          have hdropc := List.drop_eq_getElem_cons hk
          rw [hgetelem] at hdropc
          rw [hdropc, List.drop_eq_nil_of_le (by omega)]
      -- the character after `]` is inside s, hence neither `[` nor `.` nor the end
      have hmem : s[countWhile Char.isDigit s + 1] ∈ s := List.getElem_mem hk1
      have hseg' := hseg _ hmem
      simp only [isSegChar, Bool.and_eq_true, decide_eq_true_eq] at hseg'
      have hget1 : (s ++ rest)[countWhile Char.isDigit s + 1]? =
          some (s[countWhile Char.isDigit s + 1]) := by
        rw [List.getElem?_append_left hk1]
        exact List.getElem?_eq_getElem hk1
      simp only [matchAt, hdrop, hd, hgets, hget1]
      rw [if_pos trivial, if_neg (by simp [hseg'.2]), if_neg (by simp [hseg'.1]),
        if_neg (by simp)]
      exact hB
    · -- next character after the digits is not `]`: first alternative fails
      have hne : (s ++ rest)[countWhile Char.isDigit (s ++ rest)]? ≠ some ']' := by
        rw [hd, hgets]
        simp [hcbr]
      simp only [matchAt, hdrop, if_neg hne]
      exact hB
  · -- s consists of digits only; the character after them is `.`/`[`/end, not `]`
    have hk' : countWhile Char.isDigit s = s.length := Nat.le_antisymm (countWhile_le _ _) hk
    have hd : countWhile Char.isDigit (s ++ rest) = s.length := by
      rw [countWhile_append, if_pos hk']
      have h0 : countWhile Char.isDigit rest = 0 := by
        rcases hrest with rfl | ⟨r, rfl⟩ | ⟨r, rfl⟩ <;> simp [countWhile, Char.isDigit]
      omega
    have hget : (s ++ rest)[s.length]? = rest.head? := by
      rw [List.getElem?_append_right (Nat.le_refl _)]
      simp [List.head?_eq_getElem?]
    have hne : (s ++ rest)[countWhile Char.isDigit (s ++ rest)]? ≠ some ']' := by
      rw [hd, hget]
      rcases hrest with rfl | ⟨r, rfl⟩ | ⟨r, rfl⟩ <;> simp
    simp only [matchAt, hdrop, if_neg hne]
    exact hB

theorem strMk_toList (s : String) : String.mk s.toList = s := rfl

theorem scanParts_end (full : List Char) (i fuel : Nat) (h : full.length ≤ i) :
    scanParts full i fuel = [] := by
  cases fuel with
  | zero => rfl
  | succ f => simp [scanParts, h]

theorem itemsRender_restOk (rest : List PathItem) :
    itemsRender rest = [] ∨ (∃ r, itemsRender rest = '.' :: r) ∨
      (∃ r, itemsRender rest = '[' :: r) := by
  cases rest with
  | nil => exact Or.inl rfl
  | cons it r =>
    cases it with
    | dotSeg s => exact Or.inr (Or.inl ⟨_, rfl⟩)
    | arrSeg d => exact Or.inr (Or.inr ⟨_, rfl⟩)

theorem nextTypeDflt_itemsRender (rest : List PathItem) :
    nextTypeDflt (itemsRender rest) = dfltOf rest := by
  cases rest with
  | nil => rfl
  | cons it r => cases it <;> rfl

theorem nextTypeConsume_cons (it : PathItem) (r : List PathItem) :
    nextTypeConsume (itemsRender (it :: r)) = 1 := by
  cases it <;> rfl

theorem scanParts_items (items : List PathItem) : ∀ (acc : List Char) (fuel : Nat),
    (∀ it ∈ items, itemOkB it = true) →
    (itemsRender items).length ≤ fuel →
    scanParts (acc ++ itemsRender items) (acc.length + 1) fuel = expectedParts acc items := by
  induction items with
  | nil =>
    intro acc fuel _ _
    exact scanParts_end _ _ _ (by simp [itemsRender])
  | cons it rest ih =>
    intro acc fuel hok hfuel
    have hokit := hok it (List.mem_cons_self _ _)
    have hokrest : ∀ it' ∈ rest, itemOkB it' = true :=
      fun it' h => hok it' (List.mem_cons_of_mem _ h)
    cases it with
    | dotSeg s =>
      simp only [itemOkB, Bool.and_eq_true] at hokit
      have hne : s.toList ≠ [] := by
        have := hokit.1
        simp [segOkB] at this
        exact this.1
      have hseg : ∀ c ∈ s.toList, isSegChar c = true := by
        have := hokit.1
        simp [segOkB] at this
        exact this.2
      have hbr : s.toList.drop (countWhile Char.isDigit s.toList) ≠ [']'] := by
        have := hokit.2
        simp [isBracketForm] at this
        exact this
      have hfull : acc ++ itemsRender (.dotSeg s :: rest) =
          (acc ++ ['.']) ++ (s.toList ++ itemsRender rest) := by
        simp [itemsRender, itemRender]
      have hslen : s.toList.length ≠ 0 :=
        fun h => hne (List.eq_nil_of_length_eq_zero h)
      cases fuel with
      | zero =>
        exact absurd (List.eq_nil_of_length_eq_zero (Nat.le_zero.mp hfuel))
          (by simp [itemsRender, itemRender])
      | succ f =>
        rw [hfull]
        have hnotend :
            ¬(((acc ++ ['.']) ++ (s.toList ++ itemsRender rest)).length ≤ acc.length + 1) := by
          simp only [List.length_append, List.length_cons, List.length_nil]
          omega
        have hmatch := matchAt_obj (acc ++ ['.']) s.toList (itemsRender rest)
          hne hseg hbr (itemsRender_restOk rest)
        have hprelen : ((acc ++ ['.']) : List Char).length = acc.length + 1 := by simp
        rw [hprelen] at hmatch
        simp only [scanParts, if_neg hnotend, hmatch]
        simp only [expectedParts, strMk_toList, nextTypeDflt_itemsRender]
        rw [show ((acc ++ ['.']) ++ s.toList : List Char) = acc ++ '.' :: s.toList from by simp]
        congr 1
        cases rest with
        | nil =>
          have hc : nextTypeConsume (itemsRender ([] : List PathItem)) = 0 := rfl
          rw [hc]
          refine scanParts_end _ _ _ ?_
          simp only [itemsRender, List.append_nil, List.length_append,
            List.length_cons, List.length_nil]
          omega
        | cons it2 rest2 =>
          rw [nextTypeConsume_cons]
          have hpos : acc.length + 1 + s.toList.length + 1 =
              ((acc ++ '.' :: s.toList) : List Char).length + 1 := by
            simp only [List.length_append, List.length_cons, List.length_nil]
            omega
          have hfull2 : (acc ++ ['.']) ++ (s.toList ++ itemsRender (it2 :: rest2)) =
              (acc ++ '.' :: s.toList) ++ itemsRender (it2 :: rest2) := by
            simp
          rw [hpos, hfull2]
          exact ih (acc ++ '.' :: s.toList) f hokrest (by
            have hlen : (itemsRender (PathItem.dotSeg s :: it2 :: rest2)).length =
                1 + s.toList.length + (itemsRender (it2 :: rest2)).length := by
              simp [itemsRender, itemRender]
              omega
            omega)
    | arrSeg d =>
      simp only [itemOkB] at hokit
      have hds : ∀ c ∈ d.toList, Char.isDigit c = true := by
        simpa using hokit
      have hfull : acc ++ itemsRender (.arrSeg d :: rest) =
          (acc ++ ['[']) ++ (d.toList ++ ']' :: itemsRender rest) := by
        simp [itemsRender, itemRender]
      cases fuel with
      | zero =>
        exact absurd (List.eq_nil_of_length_eq_zero (Nat.le_zero.mp hfuel))
          (by simp [itemsRender, itemRender])
      | succ f =>
        rw [hfull]
        have hnotend :
            ¬(((acc ++ ['[']) ++ (d.toList ++ ']' :: itemsRender rest)).length ≤ acc.length + 1) := by
          simp only [List.length_append, List.length_cons, List.length_nil]
          omega
        have hmatch := matchAt_arr (acc ++ ['[']) d.toList (itemsRender rest)
          hds (itemsRender_restOk rest)
        have hprelen : ((acc ++ ['[']) : List Char).length = acc.length + 1 := by simp
        rw [hprelen] at hmatch
        simp only [scanParts, if_neg hnotend, hmatch]
        simp only [expectedParts, strMk_toList, nextTypeDflt_itemsRender]
        rw [show ((acc ++ ['[']) ++ d.toList ++ [']'] : List Char) =
          acc ++ '[' :: (d.toList ++ [']']) from by simp]
        congr 1
        cases rest with
        | nil =>
          have hc : nextTypeConsume (itemsRender ([] : List PathItem)) = 0 := rfl
          rw [hc]
          refine scanParts_end _ _ _ ?_
          simp only [itemsRender, List.append_nil, List.length_append,
            List.length_cons, List.length_nil]
          omega
        | cons it2 rest2 =>
          rw [nextTypeConsume_cons]
          have hpos : acc.length + 1 + d.toList.length + 1 + 1 =
              ((acc ++ '[' :: (d.toList ++ [']'])) : List Char).length + 1 := by
            simp only [List.length_append, List.length_cons, List.length_nil]
            omega
          have hfull2 : (acc ++ ['[']) ++ (d.toList ++ ']' :: itemsRender (it2 :: rest2)) =
              (acc ++ '[' :: (d.toList ++ [']'])) ++ itemsRender (it2 :: rest2) := by
            simp
          rw [hpos, hfull2]
          exact ih (acc ++ '[' :: (d.toList ++ [']'])) f hokrest (by
            have : (itemsRender (PathItem.arrSeg d :: it2 :: rest2)).length =
                2 + d.toList.length + (itemsRender (it2 :: rest2)).length := by
              simp [itemsRender, itemRender]
              omega
            omega)

theorem extractPathParts_grammar (head : String) (items : List PathItem)
    (h1 : segOkB head = true) (h2 : isBracketForm head = false)
    (h3 : ∀ it ∈ items, itemOkB it = true) :
    extractPathParts (String.mk (head.toList ++ itemsRender items)) =
      ⟨head, .object, dfltOf items, head⟩ :: expectedParts head.toList items := by
  have hne : head.toList ≠ [] := by
    simp [segOkB] at h1
    exact h1.1
  have hseg : ∀ c ∈ head.toList, isSegChar c = true := by
    simp [segOkB] at h1
    exact h1.2
  have hbr : head.toList.drop (countWhile Char.isDigit head.toList) ≠ [']'] := by
    simp [isBracketForm] at h2
    exact h2
  have hslen : head.toList.length ≠ 0 :=
    fun h => hne (List.eq_nil_of_length_eq_zero h)
  have hmatch := matchAt_obj [] head.toList (itemsRender items) hne hseg hbr
    (itemsRender_restOk items)
  simp only [List.nil_append, List.length_nil, Nat.zero_add] at hmatch
  show scanParts (head.toList ++ itemsRender items) 0
      ((head.toList ++ itemsRender items).length + 1) = _
  have hnotend : ¬((head.toList ++ itemsRender items).length ≤ 0) := by
    simp only [List.length_append]
    omega
  simp only [scanParts, if_neg hnotend, hmatch]
  simp only [strMk_toList, nextTypeDflt_itemsRender]
  congr 1
  cases items with
  | nil =>
    have hc : nextTypeConsume (itemsRender ([] : List PathItem)) = 0 := rfl
    rw [hc]
    refine scanParts_end _ _ _ ?_
    simp only [itemsRender, List.append_nil, List.length_append, List.length_nil]
    omega
  | cons it2 rest2 =>
    rw [nextTypeConsume_cons]
    have hpos : head.toList.length + nextTypeConsume (itemsRender (it2 :: rest2)) =
        head.toList.length + 1 := by rw [nextTypeConsume_cons]
    exact scanParts_items (it2 :: rest2) head.toList
      ((head.toList ++ itemsRender (it2 :: rest2)).length) h3 (by
        simp only [List.length_append]
        omega)

theorem heapGet_setNode_ne (h : List Node) (a b : Addr) (n : Node) (hne : a ≠ b) :
    heapGet (setNode h b n) a = heapGet h a := by
  simp [heapGet, setNode, List.getElem?_set_ne (Ne.symm hne)]

theorem squashNode_idem (n : Node) : squashNode (squashNode n) = squashNode n := by
  cases n with
  | arr es =>
    simp only [squashNode]
    congr 1
    simp [squash, List.filterMap_map]
  | leaf v => rfl
  | obj fs => rfl

theorem compactPass_heapGet (st : PState) (a : Addr) :
    heapGet (compactPass st).heap a =
      if a ∈ st.awo then squashNode (heapGet st.heap a) else heapGet st.heap a := by
  obtain ⟨h, aw⟩ := st
  simp only [compactPass]
  induction aw generalizing h with
  | nil => simp
  | cons b rest ih =>
    simp only [List.foldl_cons]
    rw [ih]
    by_cases hab : a = b
    · subst hab
      have hself : heapGet (setNode h a (squashNode (heapGet h a))) a =
          squashNode (heapGet h a) := by
        by_cases hlt : a < h.length
        · simp [heapGet, setNode, List.getElem?_set_self, hlt]
        · have hnoop : setNode h a (squashNode (heapGet h a)) = h := by
            simp [setNode, List.set_eq_of_length_le (Nat.le_of_not_lt hlt)]
          rw [hnoop]
          have hdefault : heapGet h a = .leaf .null := by
            simp [heapGet, List.getElem?_eq_none (Nat.le_of_not_lt hlt)]
          simp [hdefault, squashNode]
      by_cases hmem : a ∈ rest
      · simp [hmem, hself, squashNode_idem]
      · simp [hmem, hself]
    · rw [heapGet_setNode_ne _ _ _ _ hab]
      simp [hab]

theorem squash_no_gaps (es : List (Option Addr)) (h : ∀ o ∈ es, o ≠ none) :
    squash es = es := by
  unfold squash
  induction es with
  | nil => rfl
  | cons o rest ih =>
    rcases o with _ | a
    · exact absurd rfl (h none (List.mem_cons_self _ _))
    · simpa using ih fun o ho => h o (List.mem_cons_of_mem _ ho)

theorem squash_keeps_set_values (es : List (Option Addr)) :
    (squash es).filterMap id = es.filterMap id ∧ ∀ o ∈ squash es, o ≠ none := by
  constructor
  · simp [squash, List.filterMap_map]
  · intro o ho
    simp [squash] at ho
    obtain ⟨a, _, rfl⟩ := ho
    simp

theorem runEntries_user_err {ε : Type} (tr : Entry → Except ε (String × LeafValue))
    (rm : Bool) (entries : List Entry) (st : PState) (err : ε)
    (h : runEntries tr rm st entries = .error (.user err)) :
    ∃ e ∈ entries, tr e = .error err := by
  induction entries generalizing st with
  | nil => simp [runEntries] at h
  | cons e rest ih =>
    simp only [runEntries] at h
    rcases hpe : processEntry tr rm st e with pe | st'
    · rw [hpe] at h
      simp only [Except.error.injEq] at h
      subst h
      unfold processEntry at hpe
      split at hpe
      · simp at hpe
      · rcases hte : tr e with terr | tres
        · rw [hte] at hpe
          simp only [RunError.user.injEq] at hpe
          cases hpe
          exact ⟨e, List.mem_cons_self _ _, hte⟩
        · rw [hte] at hpe
          obtain ⟨path, value⟩ := tres
          simp only at hpe
          rcases hins : insertParts st 0 value (extractPathParts path) with ierr | st2
          · rw [hins] at hpe; simp at hpe
          · rw [hins] at hpe; simp at hpe
    · rw [hpe] at h
      simp only at h
      obtain ⟨e', he', hte'⟩ := ih st' h
      exact ⟨e', List.mem_cons_of_mem _ he', hte'⟩

/-! ### The claims -/

set_option maxHeartbeats 1000000 in
/-- Claim C1: after all entries are processed, every array that received an
explicit-index write (also nested ones) is rewritten in place, dropping the
unset/gap positions while preserving the ascending index order of the set
positions: `foo[1]=x` then `foo[0]=y` gives `{foo: [y, x]}`, an array with
only indices 0 and 21 set becomes the 2-element array `[value at 0, value
at 21]`, a nested indexed array is compacted too, the compaction pass
rewrites exactly the registered arrays, and squashing keeps exactly the
set values in their original ascending order. -/
theorem claim1_explicit_index_compaction :
    (∀ x y : String, parseFormData false [("foo[1]", .str x), ("foo[0]", .str y)] =
      .ok (.obj [("foo", .arr [some (.str y), some (.str x)])])) ∧
    parseFormData false [("foo[0]", .str "x"), ("foo[21]", .str "y")] =
      .ok (.obj [("foo", .arr [some (.str "x"), some (.str "y")])]) ∧
    parseFormData false [("a[0].b[2]", .str "x"), ("a[0].b[5]", .str "y")] =
      .ok (.obj [("a", .arr [some (.obj [("b",
        .arr [some (.str "x"), some (.str "y")])])])]) ∧
    (∀ st a, heapGet (compactPass st).heap a =
      if a ∈ st.awo then squashNode (heapGet st.heap a) else heapGet st.heap a) ∧
    (∀ es, (squash es).filterMap id = es.filterMap id ∧ ∀ o ∈ squash es, o ≠ none) := by
  refine ⟨?_, ?_, ?_, compactPass_heapGet, squash_keeps_set_values⟩
  · intro x y
    have h : runEntries defaultTransformE false ⟨[Node.obj []], []⟩
        [("foo[1]", .str x), ("foo[0]", .str y)] =
      .ok ⟨[Node.obj [("foo", 1)], Node.arr [some 3, some 2],
            Node.leaf (.str x), Node.leaf (.str y)], [1]⟩ := rfl
    simp only [parseFormData, parseFormDataWith, h]
    rfl
  · have h : runEntries defaultTransformE false ⟨[Node.obj []], []⟩
        [("foo[0]", .str "x"), ("foo[21]", .str "y")] =
      .ok ⟨[Node.obj [("foo", 1)],
            Node.arr (some 2 :: (List.replicate 20 none ++ [some 3])),
            Node.leaf (.str "x"), Node.leaf (.str "y")], [1]⟩ := by decide
    simp only [parseFormData, parseFormDataWith, h]
    rfl
  · have h : runEntries defaultTransformE false ⟨[Node.obj []], []⟩
        [("a[0].b[2]", .str "x"), ("a[0].b[5]", .str "y")] =
      .ok ⟨[Node.obj [("a", 1)], Node.arr [some 2], Node.obj [("b", 3)],
            Node.arr [none, none, some 4, none, none, some 5],
            Node.leaf (.str "x"), Node.leaf (.str "y")], [1, 3]⟩ := by decide
    simp only [parseFormData, parseFormDataWith, h]
    rfl

/-- Witness for C1 (instantiating the membership hypothesis of the squash
property at a concrete squashed element). -/
theorem claim1_witness : (some 3 : Option Addr) ≠ none :=
  (claim1_explicit_index_compaction.2.2.2.2 [some 3, none]).2 (some 3) (by decide)

/-- Claim C2: a push (empty-key) write into an array that has previously
received an explicit-index write raises a mixed-addressing error naming the
violating segment's path-so-far, and an explicit-index write into a
non-empty array that has received only push writes does too; concretely,
`foo[]=a` then `foo[0]=b` raises it naming `foo[0]`, and the reverse order
raises it naming `foo[]`. -/
theorem claim2_mixed_addressing :
    (∀ (pp : PathPart) (self : Addr) (es : List (Option Addr)) (aw : List Addr),
      pp.type = .array → pp.path = "" → self ∈ aw →
      handlePathPart pp self (.arr es) aw = .error (.MixedArrayError pp.pathToPart)) ∧
    (∀ (pp : PathPart) (self : Addr) (es : List (Option Addr)) (aw : List Addr),
      pp.type = .array → pp.path ≠ "" → self ∉ aw → es ≠ [] →
      handlePathPart pp self (.arr es) aw = .error (.MixedArrayError pp.pathToPart)) ∧
    parseFormData false [("foo[]", .str "a"), ("foo[0]", .str "b")] =
      .error (.MixedArrayError "foo[0]") ∧
    parseFormData false [("foo[0]", .str "a"), ("foo[]", .str "b")] =
      .error (.MixedArrayError "foo[]") := by
  refine ⟨?_, ?_, rfl, rfl⟩
  · intro pp self es aw h1 h2 h3
    simp [handlePathPart, h1, h2, h3]
  · intro pp self es aw h1 h2 h3 h4
    simp [handlePathPart, h1, h2, h3, List.length_pos.mpr h4]

/-- Witness for C2: both mixed-addressing rules at concrete inputs. -/
theorem claim2_witness :
    handlePathPart ⟨"", PType.array, Node.obj [], "foo[]"⟩ 1 (.arr [some 2]) [1] =
      .error (.MixedArrayError "foo[]") ∧
    handlePathPart ⟨"0", PType.array, Node.obj [], "foo[0]"⟩ 1 (.arr [some 2]) [] =
      .error (.MixedArrayError "foo[0]") :=
  ⟨claim2_mixed_addressing.1 _ 1 _ [1] rfl rfl (by decide),
   claim2_mixed_addressing.2.1 _ 1 _ [] rfl (by decide) (by decide) (by decide)⟩

/-- Claim C3: at the last segment of an entry, an already-present value
(leaf or container) at the target position raises a structural conflict
(`DuplicateKeyError`) carrying the final segment's path-so-far, and
otherwise the coerced leaf value is written there; concretely `foo=a` then
`foo=b` raises a structural conflict naming `foo`, while a single `foo=x`
stores `x` at `foo`. -/
theorem claim3_last_segment :
    (∀ (st : PState) (cur : Addr) (v : LeafValue) (pp : PathPart) (wt : WriteTarget)
        (aw' : List Addr) (a : Addr),
      handlePathPart pp cur (heapGet st.heap cur) st.awo = .ok (some a, wt, aw') →
      insertParts st cur v [pp] = .error (.DuplicateKeyError pp.pathToPart)) ∧
    (∀ (st : PState) (cur : Addr) (v : LeafValue) (pp : PathPart) (wt : WriteTarget)
        (aw' : List Addr),
      handlePathPart pp cur (heapGet st.heap cur) st.awo = .ok (none, wt, aw') →
      insertParts st cur v [pp] =
        .ok ⟨setAt (st.heap ++ [Node.leaf v]) cur wt st.heap.length, aw'⟩) ∧
    parseFormData false [("foo", .str "a"), ("foo", .str "b")] =
      .error (.DuplicateKeyError "foo") ∧
    (∀ x : String, parseFormData false [("foo", .str x)] =
      .ok (.obj [("foo", .str x)])) := by
  refine ⟨?_, ?_, rfl, ?_⟩
  · intro st cur v pp wt aw' a h
    simp [insertParts, h]
  · intro st cur v pp wt aw' h
    simp [insertParts, h]
  · intro x
    have h : runEntries defaultTransformE false ⟨[Node.obj []], []⟩ [("foo", .str x)] =
      .ok ⟨[Node.obj [("foo", 1)], Node.leaf (.str x)], []⟩ := rfl
    simp only [parseFormData, parseFormDataWith, h]
    rfl

/-- Witness for C3: a duplicate last-segment write at a concrete state. -/
theorem claim3_witness :
    insertParts ⟨[Node.obj [("foo", 1)], Node.leaf (.str "a")], []⟩ 0 (.str "b")
        [⟨"foo", PType.object, Node.obj [], "foo"⟩] =
      .error (.DuplicateKeyError "foo") :=
  claim3_last_segment.1 _ 0 _ _ (.objKey "foo") [] 1 rfl

/-- Claim C4: a kind mismatch between the current container and the
segment (object segment into an array or array segment into an object), or
an intermediate segment resolving to a leaf, raises a structural conflict
carrying the path-so-far of the segment at which the conflict was
detected — possibly an intermediate segment, not the full original path;
concretely `foo[]=a` then `foo.bar=b` raises it naming `foo.bar`, and
`foo=a` then `foo.bar.baz=b` raises it naming `foo`. -/
theorem claim4_structural_conflicts :
    (∀ (pp : PathPart) (self : Addr) (es : List (Option Addr)) (aw : List Addr),
      pp.type = .object →
      handlePathPart pp self (.arr es) aw = .error (.DuplicateKeyError pp.pathToPart)) ∧
    (∀ (pp : PathPart) (self : Addr) (fs : List (String × Addr)) (aw : List Addr),
      pp.type = .array →
      handlePathPart pp self (.obj fs) aw = .error (.DuplicateKeyError pp.pathToPart)) ∧
    (∀ (st : PState) (cur : Addr) (v : LeafValue) (pp pp2 : PathPart)
        (rest : List PathPart) (wt : WriteTarget) (aw' : List Addr) (a : Addr)
        (lv : LeafValue),
      handlePathPart pp cur (heapGet st.heap cur) st.awo = .ok (some a, wt, aw') →
      heapGet st.heap a = .leaf lv →
      insertParts st cur v (pp :: pp2 :: rest) = .error (.DuplicateKeyError pp.pathToPart)) ∧
    parseFormData false [("foo[]", .str "a"), ("foo.bar", .str "b")] =
      .error (.DuplicateKeyError "foo.bar") ∧
    parseFormData false [("foo", .str "a"), ("foo.bar.baz", .str "b")] =
      .error (.DuplicateKeyError "foo") := by
  refine ⟨?_, ?_, ?_, rfl, rfl⟩
  · intro pp self es aw h1
    simp [handlePathPart, h1]
  · intro pp self fs aw h1
    simp [handlePathPart, h1]
  · intro st cur v pp pp2 rest wt aw' a lv h hleaf
    simp [insertParts, h, hleaf]

/-- Witness for C4: the kind-mismatch rule at a concrete input. -/
theorem claim4_witness :
    handlePathPart ⟨"k", PType.object, Node.obj [], "k"⟩ 0 (.arr []) [] =
      .error (.DuplicateKeyError "k") :=
  claim4_structural_conflicts.1 _ 0 [] [] rfl

/-- Counterexample to claim C5 as stated: the path `"0]"` matches the
spec grammar as a single object segment (its characters exclude `.` and
`[`), yet the tokenizer emits an array segment with key `"0"` — not the
object segment whose text is the maximal run `"0]"` — because the regex's
first alternative `(\d*)\]` fires on segments of the shape `digit* ']'`. -/
theorem claim5_counterexample :
    segOkB "0]" = true ∧
    String.mk (("0]").toList ++ itemsRender []) = "0]" ∧
    extractPathParts "0]" = [⟨"0", PType.array, Node.obj [], "0]"⟩] ∧
    extractPathParts "0]" ≠ [⟨"0]", PType.object, Node.obj [], "0]"⟩] := by
  decide

/-- Claim C5 (amended): for every canonical path matching the grammar in
which no object segment (the head or a dot-separated segment) consists of
zero or more digits followed by a closing `]` as its whole text, the
tokenizer produces one segment per grammar item — object segments carry
the maximal `[^.[]` run, array segments the digit string between the
brackets (empty meaning push), each segment's default container is an
empty array exactly when the next character is `[`, and each `pathToPart`
is the path prefix ending at the segment's last character; e.g. `a[0].b`
yields pathToParts `a`, `a[0]`, `a[0].b`. -/
theorem claim5_grammar_tokenization :
    (∀ (head : String) (items : List PathItem),
      segOkB head = true → isBracketForm head = false →
      (∀ it ∈ items, itemOkB it = true) →
      extractPathParts (String.mk (head.toList ++ itemsRender items)) =
        ⟨head, .object, dfltOf items, head⟩ :: expectedParts head.toList items) ∧
    extractPathParts "a[0].b" =
      [⟨"a", PType.object, Node.arr [], "a"⟩, ⟨"0", PType.array, Node.obj [], "a[0]"⟩,
       ⟨"b", PType.object, Node.obj [], "a[0].b"⟩] :=
  ⟨extractPathParts_grammar, by decide⟩

/-- Witness for C5: the grammar characterization applied to `a[0].b`. -/
theorem claim5_witness :
    extractPathParts (String.mk (("a").toList ++
        itemsRender [PathItem.arrSeg "0", PathItem.dotSeg "b"])) =
      ⟨"a", PType.object, dfltOf [PathItem.arrSeg "0", PathItem.dotSeg "b"], "a"⟩ ::
        expectedParts ("a").toList [PathItem.arrSeg "0", PathItem.dotSeg "b"] :=
  claim5_grammar_tokenization.1 "a" _ (by decide) (by decide) (by decide)

/-- Claim C6: the default transform strips a leading `+` and coerces the
value to a number (non-numeric text gives NaN, not an error), strips a
leading `&` and yields true exactly when the value is `on` or `true`
(case-sensitively) or coerces to a non-zero non-NaN number, strips a
leading `-` and yields null regardless of the value, and otherwise passes
path and value through unchanged (binary payloads are never coerced). -/
theorem claim6_default_transform :
    (∀ p v, strHead? p = some '+' →
        defaultTransform (p, v) = (strTail p, .num (jsToNumber v))) ∧
    (∀ p v, strHead? p = some '&' →
        ∃ b, defaultTransform (p, v) = (strTail p, .bool b) ∧
          (b = true ↔ (v = RawValue.str "on" ∨ v = RawValue.str "true" ∨
            ∃ q, q ≠ 0 ∧ jsToNumber v = .val q))) ∧
    (∀ p v, strHead? p = some '-' →
        defaultTransform (p, v) = (strTail p, .null)) ∧
    (∀ p v, strHead? p ≠ some '+' → strHead? p ≠ some '&' → strHead? p ≠ some '-' →
        defaultTransform (p, v) = (p, leafOfRaw v)) ∧
    (∀ f, leafOfRaw (.file f) = .file f) ∧
    defaultTransform ("+n", .str "1") = ("n", .num (.val 1)) ∧
    defaultTransform ("+n", .str "abc") = ("n", .num .nan) ∧
    defaultTransform ("&b", .str "on") = ("b", .bool true) ∧
    defaultTransform ("&b", .str "true") = ("b", .bool true) ∧
    defaultTransform ("&b", .str "0") = ("b", .bool false) ∧
    (∀ v, defaultTransform ("-x", v) = ("x", .null)) := by
  refine ⟨?_, ?_, ?_, ?_, fun f => rfl, by decide, by decide, by decide, by decide, by decide,
    fun v => rfl⟩
  · intro p v h; simp [defaultTransform, h]
  · intro p v h
    refine ⟨rawIsStr v "on" || rawIsStr v "true" || jsTruthy (jsToNumber v),
      by simp [defaultTransform, h], ?_⟩
    constructor
    · intro hb
      rcases v with s | f
      · simp only [rawIsStr, jsToNumber] at hb ⊢
        rcases Bool.or_eq_true_iff.mp hb with h1 | h2
        · rcases Bool.or_eq_true_iff.mp h1 with h3 | h4
          · exact Or.inl
              (by simpa using congrArg RawValue.str (by exact_mod_cast of_decide_eq_true h3))
          · exact Or.inr (Or.inl (by simpa using congrArg RawValue.str (of_decide_eq_true h4)))
        · cases hq : jsStrToNumber s with
          | nan => rw [hq] at h2; simp [jsTruthy] at h2
          | val q =>
            rw [hq] at h2; simp [jsTruthy] at h2
            exact Or.inr (Or.inr ⟨q, h2, rfl⟩)
      · simp [rawIsStr, jsToNumber, jsTruthy] at hb
    · intro hv
      rcases hv with h1 | h1 | ⟨q, hq, hv⟩
      · subst h1; simp [rawIsStr]
      · subst h1; simp [rawIsStr]
      · simp [hv, jsTruthy, hq]
  · intro p v h; simp [defaultTransform, h]
  · intro p v h1 h2 h3; simp [defaultTransform, h1, h2, h3]

/-- Witness for C6: the number rule applied at `+a=5`. -/
theorem claim6_witness :
    defaultTransform ("+a", .str "5") = ("a", .num (jsToNumber (.str "5"))) :=
  claim6_default_transform.1 "+a" (.str "5") rfl

/-- Claim C7: push (empty-key) writes into an array append at the current
length, so a push-only array lists its values in input order
(`foo[]=x` then `foo[]=y` gives `{foo: [x, y]}`, and reversing the input
is the same statement with `x` and `y` interchanged), and push-only arrays
are untouched by the compaction pass since they have no gaps (they are
never registered, and squashing a gap-free array changes nothing). -/
theorem claim7_push_arrays :
    (∀ (pp : PathPart) (self : Addr) (es : List (Option Addr)) (aw : List Addr),
      pp.type = .array → pp.path = "" → self ∉ aw →
      handlePathPart pp self (.arr es) aw = .ok (none, .arrIdx es.length, aw)) ∧
    (∀ x y : String, parseFormData false [("foo[]", .str x), ("foo[]", .str y)] =
      .ok (.obj [("foo", .arr [some (.str x), some (.str y)])])) ∧
    (∀ st a, a ∉ st.awo → heapGet (compactPass st).heap a = heapGet st.heap a) ∧
    (∀ es, (∀ o ∈ es, o ≠ none) → squash es = es) := by
  refine ⟨?_, ?_, ?_, squash_no_gaps⟩
  · intro pp self es aw h1 h2 h3
    simp [handlePathPart, h1, h2, h3, arrGet]
  · intro x y
    have h : runEntries defaultTransformE false ⟨[Node.obj []], []⟩
        [("foo[]", .str x), ("foo[]", .str y)] =
      .ok ⟨[Node.obj [("foo", 1)], Node.arr [some 2, some 3],
            Node.leaf (.str x), Node.leaf (.str y)], []⟩ := rfl
    simp only [parseFormData, parseFormDataWith, h]
    rfl
  · intro st a h
    rw [compactPass_heapGet]
    simp [h]

/-- Witness for C7: a push write appending to a one-element array. -/
theorem claim7_witness :
    handlePathPart ⟨"", PType.array, Node.obj [], "foo[]"⟩ 1 (.arr [some 2]) [] =
      .ok (none, .arrIdx 1, []) :=
  claim7_push_arrays.1 _ 1 [some 2] [] rfl rfl (by decide)

/-- Claim C8: a parse with the default transform either returns a root
object or fails with exactly one of the two error kinds, each carrying the
offending path-so-far; numeric coercion failure yields NaN rather than an
error, and a failing custom transform propagates its own error to the
caller unmodified. -/
theorem claim8_error_taxonomy :
    (∀ rm entries, (∃ v, parseFormData rm entries = .ok v) ∨
      (∃ k, parseFormData rm entries = .error (.DuplicateKeyError k)) ∨
      (∃ k, parseFormData rm entries = .error (.MixedArrayError k))) ∧
    parseFormData false [("+n", .str "abc")] = .ok (.obj [("n", .num .nan)]) ∧
    (∀ {ε : Type} (tr : Entry → Except ε (String × LeafValue)) rm entries (err : ε),
      parseFormDataWith tr rm entries = .error (.user err) →
      ∃ e ∈ entries, tr e = .error err) := by
  refine ⟨?_, ?_, ?_⟩
  · intro rm entries
    rcases h : parseFormData rm entries with e | v
    · rcases e with k | k
      · exact Or.inr (Or.inl ⟨k, rfl⟩)
      · exact Or.inr (Or.inr ⟨k, rfl⟩)
    · exact Or.inl ⟨v, rfl⟩
  · have h : runEntries defaultTransformE false ⟨[Node.obj []], []⟩ [("+n", .str "abc")] =
      .ok ⟨[Node.obj [("n", 1)], Node.leaf (.num .nan)], []⟩ := by decide
    simp only [parseFormData, parseFormDataWith, h]
    rfl
  · intro ε tr rm entries err h
    unfold parseFormDataWith at h
    rcases hrun : runEntries tr rm ⟨[Node.obj []], []⟩ entries with e | st
    · rw [hrun] at h
      simp only [Except.error.injEq] at h
      subst h
      exact runEntries_user_err _ _ _ _ _ hrun
    · rw [hrun] at h
      simp at h

/-- Witness for C8: a transform that always fails propagates its error. -/
theorem claim8_witness :
    ∃ e ∈ [(("a" : String), RawValue.str "v")],
      (fun (_ : Entry) => (.error "boom" : Except String (String × LeafValue))) e =
        .error "boom" :=
  claim8_error_taxonomy.2.2 _ false _ "boom" rfl

/-- Claim C9: with `removeEmptyString` set, an entry whose raw value is
the empty string is skipped before the transform step and contributes
nothing, even when other entries write siblings in the same containers,
and explicit-index compaction works from the survivors only: skipping is
independent of the transform, `{a: "", b: "b"}` gives `{b: "b"}`, and
`a[0]=foo, a[1]=""` gives `{a: ["foo"]}`. -/
theorem claim9_remove_empty_string :
    (∀ {ε : Type} (tr : Entry → Except ε (String × LeafValue)) (p : String) st rest,
        runEntries tr true st ((p, .str "") :: rest) = runEntries tr true st rest) ∧
    parseFormData true [("a", .str ""), ("b", .str "b")] = .ok (.obj [("b", .str "b")]) ∧
    parseFormData true [("a[0]", .str "foo"), ("a[1]", .str "")] =
      .ok (.obj [("a", .arr [some (.str "foo")])]) := by
  refine ⟨fun tr p st rest => rfl, ?_, ?_⟩
  · have h : runEntries defaultTransformE true ⟨[Node.obj []], []⟩
        [("a", .str ""), ("b", .str "b")] =
      .ok ⟨[Node.obj [("b", 1)], Node.leaf (.str "b")], []⟩ := by decide
    simp only [parseFormData, parseFormDataWith, h]
    rfl
  · have h : runEntries defaultTransformE true ⟨[Node.obj []], []⟩
        [("a[0]", .str "foo"), ("a[1]", .str "")] =
      .ok ⟨[Node.obj [("a", 1)], Node.arr [some 2], Node.leaf (.str "foo")], [1]⟩ := by
      decide
    simp only [parseFormData, parseFormDataWith, h]
    rfl

/-- Claim C10: an entry whose canonical path after the transform is empty
(e.g. the raw key `+` or `-` alone) tokenizes to zero segments and is
silently discarded: the tree is unchanged and no error is raised. -/
theorem claim10_empty_path_discarded :
    extractPathParts "" = [] ∧
    (∀ st cur v, insertParts st cur v [] = .ok st) ∧
    (∀ {ε : Type} (tr : Entry → Except ε (String × LeafValue)) rm st e res,
        tr e = .ok res → res.1 = "" → processEntry tr rm st e = .ok st) ∧
    (∀ v, parseFormData false [("+", v)] = .ok (.obj [])) ∧
    (∀ v, parseFormData false [("-", v)] = .ok (.obj [])) := by
  refine ⟨rfl, fun st cur v => rfl, ?_, ?_, ?_⟩
  · intro ε tr rm st e res h1 h2
    unfold processEntry
    split
    · rfl
    · rw [h1]
      obtain ⟨path, value⟩ := res
      simp only at h2
      subst h2
      rfl
  · intro v
    have h : runEntries defaultTransformE false ⟨[Node.obj []], []⟩ [("+", v)] =
      .ok ⟨[Node.obj []], []⟩ := rfl
    simp only [parseFormData, parseFormDataWith, h]
    rfl
  · intro v
    have h : runEntries defaultTransformE false ⟨[Node.obj []], []⟩ [("-", v)] =
      .ok ⟨[Node.obj []], []⟩ := rfl
    simp only [parseFormData, parseFormDataWith, h]
    rfl

/-- Witness for C10: a `+`-only key is discarded without error. -/
theorem claim10_witness :
    processEntry defaultTransformE false ⟨[Node.obj []], []⟩ ("+", .str "q") =
      .ok ⟨[Node.obj []], []⟩ :=
  claim10_empty_path_discarded.2.2.1 defaultTransformE false _ _
    ("", .num (jsToNumber (.str "q"))) rfl rfl
